import Mathlib

/-!
Source-to-sink path enumeration over an ICFG (`CFGA.cpp`).

A shallow embedding of `CFGAnalysis::analyze`, `CFGAnalysis::dfs`,
`CFGAnalysis::recordPath` and `CFGAnalysis::dumpPaths`.

* A node is identified with its id (`ICFGNode::getId`): pointer equality of
  `ICFGNode*` is equality of ids.
* The graph is consumed only through `currentNode->getOutEdges()` followed by
  `edge->getDstNode()`; it is given as a table holding, for each node id, the
  destinations of its outgoing edges in edge-iteration order.  A node without an
  entry has no outgoing edge.
* `dfs` mutates `this->paths` and its two by-reference arguments; the embedding
  passes the three of them as an explicit state.  The native recursion is
  bounded by a fuel argument: `none` means the fuel ran out.
* `dfsTraced` is `dfs` with a ghost log of the working path and the visited set
  at the entry of each call, after its step 1 and at its return; forgetting the
  log gives `dfs` back.
-/

namespace CFGA

/-- Identity of an `ICFGNode`. -/
abbrev NodeID := Nat

/-- The pre-built graph: entry `n` lists the destinations of the outgoing edges
of node `n`, in edge-iteration order. -/
structure ICFG where
  outEdges : List (List NodeID)
  deriving DecidableEq, Repr

/-- Destinations of `node->getOutEdges()`, in iteration order. -/
def ICFG.getOutEdges (g : ICFG) (n : NodeID) : List NodeID :=
  g.outEdges.getD n []

/-- The fields of `CFGAnalysis` the analysis reads and writes. -/
structure CFGAnalysis where
  sources : List NodeID
  sinks : List NodeID
  paths : List (List NodeID)
  deriving DecidableEq, Repr

/-- Everything a call of `dfs` can mutate: the object (`this`) and the two
by-reference arguments. -/
structure DfsState where
  self : CFGAnalysis
  currentPath : List NodeID
  visited : Finset NodeID
  deriving DecidableEq

/-- `CFGAnalysis::recordPath`: `paths.push_back(path)`, storing a copy. -/
def CFGAnalysis.recordPath (self : CFGAnalysis) (path : List NodeID) : CFGAnalysis :=
  { self with paths := self.paths ++ [path] }

/-- A range-based `for` loop whose body may fail to return: the body is run on
the elements in order, threading the state. -/
def forEach {α σ : Type} (body : α → σ → Option σ) : List α → σ → Option σ
  | [], st => some st
  | x :: xs, st => (body x st).bind (forEach body xs)

/-- `CFGAnalysis::dfs`. -/
def dfs (g : ICFG) : Nat → NodeID → NodeID → DfsState → Option DfsState
  | 0, _, _, _ => none
  | fuel + 1, currentNode, targetSink, st =>
    -- 1. visited.insert(currentNode); currentPath.push_back(currentNode);
    let st1 : DfsState :=
      { st with visited := insert currentNode st.visited,
                currentPath := st.currentPath ++ [currentNode] }
    -- 2. / 3.
    let r : Option DfsState :=
      if currentNode = targetSink then
        some { st1 with self := st1.self.recordPath st1.currentPath }
      else
        forEach
          (fun succNode (s : DfsState) =>
            if succNode ∉ s.visited then dfs g fuel succNode targetSink s else some s)
          (g.getOutEdges currentNode) st1
    -- 4. currentPath.pop_back(); visited.erase(currentNode);
    r.map fun st2 =>
      { st2 with currentPath := st2.currentPath.dropLast,
                 visited := st2.visited.erase currentNode }

/-- `CFGAnalysis::analyze`: one search per (source, sink) pair, each on a fresh
`currentPath` and `visited`. -/
def analyze (g : ICFG) (fuel : Nat) (self : CFGAnalysis) : Option CFGAnalysis :=
  forEach
    (fun src (self : CFGAnalysis) =>
      forEach
        (fun snk (self : CFGAnalysis) =>
          (dfs g fuel src snk { self := self, currentPath := [], visited := ∅ }).map
            fun st => st.self)
        self.sinks self)
    self.sources self

/-- The edge relation: `b` is the destination of an outgoing edge of `a`. -/
def ICFG.Edge (g : ICFG) (a b : NodeID) : Prop := b ∈ g.getOutEdges a

instance (g : ICFG) (a b : NodeID) : Decidable (g.Edge a b) :=
  inferInstanceAs (Decidable (b ∈ g.getOutEdges a))

/-- A simple path from `s` to `t`: a non-empty node sequence without repeated
node, starting at `s`, ending at `t`, each consecutive pair joined by an
outgoing edge. -/
def IsSimplePath (g : ICFG) (s t : NodeID) (p : List NodeID) : Prop :=
  p ≠ [] ∧ p.head? = some s ∧ p.getLast? = some t ∧ p.Nodup ∧ p.Chain' g.Edge

/-- Whether each consecutive pair of `p` is joined by an edge can be computed. -/
def decChain (g : ICFG) : (p : List NodeID) → Decidable (p.Chain' g.Edge)
  | [] => isTrue List.chain'_nil
  | [a] => isTrue (List.chain'_singleton a)
  | a :: b :: l =>
    have : Decidable ((b :: l).Chain' g.Edge) := decChain g (b :: l)
    decidable_of_iff (g.Edge a b ∧ (b :: l).Chain' g.Edge) List.chain'_cons.symm

instance (g : ICFG) (p : List NodeID) : Decidable (p.Chain' g.Edge) := decChain g p

instance (g : ICFG) (s t : NodeID) (p : List NodeID) : Decidable (IsSimplePath g s t p) :=
  inferInstanceAs (Decidable
    (p ≠ [] ∧ p.head? = some s ∧ p.getLast? = some t ∧ p.Nodup ∧ p.Chain' g.Edge))

/-- The nodes that are the destination of some edge. -/
def ICFG.dests (g : ICFG) : Finset NodeID := g.outEdges.flatten.toFinset

/-- A recursion depth that every search on `g` stays below: a nested call is
made on an unvisited edge destination only. -/
def ICFG.depthBound (g : ICFG) : Nat := g.dests.card + 1

/-- The state a top-level search is started in by `analyze`. -/
def topLevel (self : CFGAnalysis) : DfsState :=
  { self := self, currentPath := [], visited := ∅ }

/-- Proof device: the path suffixes below `c` that a search with `fuel` levels
of recursion records, as a pure function of the visited set at entry. -/
def suffixes (g : ICFG) : Nat → NodeID → NodeID → Finset NodeID → List (List NodeID)
  | 0, _, _, _ => []
  | fuel + 1, c, t, V =>
    if c = t then [[c]]
    else (g.getOutEdges c).flatMap fun succ =>
      if succ ∈ insert c V then [] else (suffixes g fuel succ t (insert c V)).map (c :: ·)

/-- The state in which a call of `dfs` that recorded the suffixes `L` returns. -/
def DfsState.after (st : DfsState) (c : NodeID) (L : List (List NodeID)) : DfsState :=
  { self := { st.self with paths := st.self.paths ++ L.map (st.currentPath ++ ·) },
    currentPath := st.currentPath,
    visited := st.visited.erase c }

/-- The body of the edge loop of `dfs`. -/
def edgeBody (g : ICFG) (fuel : Nat) (targetSink : NodeID) (succNode : NodeID)
    (s : DfsState) : Option DfsState :=
  if succNode ∉ s.visited then dfs g fuel succNode targetSink s else some s

/-- Text written by `raw_ostream::operator<<` for an unsigned integer: its
decimal digits. -/
def decimal (n : Nat) : String := Nat.repr n

/-- The inner loop of `dumpPaths`: `errs() << node->getId() << " -> "` for each
node of the path, in order. -/
def dumpNodes (path : List NodeID) (errs : String) : String :=
  path.foldl (fun errs node => errs ++ decimal node ++ " -> ") errs

/-- The outer loop of `dumpPaths`, `for (size_t i = 0; i < paths.size(); ++i)`,
from index `i` on; the first argument bounds the number of iterations still to
run. -/
def dumpLoop (paths : List (List NodeID)) : Nat → Nat → String → String
  | 0, _, errs => errs
  | remaining + 1, i, errs =>
    if h : i < paths.length then
      let errs := errs ++ "Path " ++ decimal (i + 1) ++ ": "
      let errs := dumpNodes paths[i] errs
      let errs := errs ++ "END\n"
      dumpLoop paths remaining (i + 1) errs
    else errs

/-- `CFGAnalysis::dumpPaths`, writing to the stream `errs`: the text written so
far is passed in and returned together with the analyzer. -/
def CFGAnalysis.dumpPaths (self : CFGAnalysis) (errs : String) : String × CFGAnalysis :=
  let errs := errs ++ "\nTotal paths found: " ++ decimal self.paths.length ++ "\n"
  (dumpLoop self.paths self.paths.length 0 errs, self)

/-- The rendering of one path as the reporting contract words it: each node id
followed by an arrow. -/
def renderNodes (path : List NodeID) : String :=
  String.join (path.map fun node => decimal node ++ " -> ")

/-- The line of the `i`-th path as the reporting contract words it. -/
def renderLine (i : Nat) (path : List NodeID) : String :=
  "Path " ++ decimal i ++ ": " ++ renderNodes path ++ "END\n"

/-- The whole dump as the reporting contract words it: the count first, then
one line per path, numbered from 1, in result-set order. -/
def renderPaths (paths : List (List NodeID)) : String :=
  "\nTotal paths found: " ++ decimal paths.length ++ "\n" ++
    String.join ((paths.enumFrom 1).map fun ip => renderLine ip.1 ip.2)

/-- The node sequence reached from `c` by taking, at each node in turn, the
outgoing edge at the given position of that node's edge-iteration order. -/
def follow (g : ICFG) : NodeID → List Nat → Option (List NodeID)
  | c, [] => some [c]
  | c, i :: is =>
    match (g.getOutEdges c)[i]? with
    | none => none
    | some e => (follow g e is).map (c :: ·)

/-- Proof device: the recorded suffixes of `suffixes`, each together with the
edge-iteration positions of the edges it was found through. -/
def routes (g : ICFG) : Nat → NodeID → NodeID → Finset NodeID → List (List Nat × List NodeID)
  | 0, _, _, _ => []
  | fuel + 1, c, t, V =>
    if c = t then [([], [c])]
    else (g.getOutEdges c).enum.flatMap fun ie =>
      if ie.2 ∈ insert c V then []
      else (routes g fuel ie.2 t (insert c V)).map fun r => (ie.1 :: r.1, c :: r.2)

/-- A search state together with a ghost log of what was observed so far: the
working path and the visited set at each observation point. -/
structure Traced where
  st : DfsState
  log : List (List NodeID × Finset NodeID)
  deriving DecidableEq

/-- Append the current working path and visited set to the ghost log. -/
def Traced.observe (x : Traced) : Traced :=
  { x with log := x.log ++ [(x.st.currentPath, x.st.visited)] }

/-- `CFGAnalysis::dfs` with the ghost log: the same body, observing the working
path and the visited set at entry, after step 1 and at return. -/
def dfsTraced (g : ICFG) : Nat → NodeID → NodeID → Traced → Option Traced
  | 0, _, _, _ => none
  | fuel + 1, currentNode, targetSink, x =>
    -- entry
    let x0 : Traced := x.observe
    -- 1. visited.insert(currentNode); currentPath.push_back(currentNode);
    let x1 : Traced := Traced.observe
      { x0 with st := { x0.st with visited := insert currentNode x0.st.visited,
                                   currentPath := x0.st.currentPath ++ [currentNode] } }
    -- 2. / 3.
    let r : Option Traced :=
      if currentNode = targetSink then
        some { x1 with st := { x1.st with self := x1.st.self.recordPath x1.st.currentPath } }
      else
        forEach
          (fun succNode (y : Traced) =>
            if succNode ∉ y.st.visited then dfsTraced g fuel succNode targetSink y else some y)
          (g.getOutEdges currentNode) x1
    -- 4. currentPath.pop_back(); visited.erase(currentNode); return
    r.map fun x2 => Traced.observe
      { x2 with st := { x2.st with currentPath := x2.st.currentPath.dropLast,
                                   visited := x2.st.visited.erase currentNode } }

/-- The body of the edge loop of `dfsTraced`. -/
def tracedBody (g : ICFG) (fuel : Nat) (targetSink : NodeID) (succNode : NodeID)
    (y : Traced) : Option Traced :=
  if succNode ∉ y.st.visited then dfsTraced g fuel succNode targetSink y else some y

/-- The path/visited invariant at one observation: a node occurs in the working
path if and only if it is in the visited set, and the working path has no node
twice. -/
def PathInv (o : List NodeID × Finset NodeID) : Prop :=
  (∀ n, n ∈ o.1 ↔ n ∈ o.2) ∧ o.1.Nodup

/-! ## The search, step by step -/

theorem dfs_zero (g : ICFG) (c t : NodeID) (st : DfsState) : dfs g 0 c t st = none := rfl

theorem dfs_succ (g : ICFG) (fuel : Nat) (c t : NodeID) (st : DfsState) :
    dfs g (fuel + 1) c t st =
      (if c = t then
          some { self := st.self.recordPath (st.currentPath ++ [c]),
                 currentPath := st.currentPath ++ [c],
                 visited := insert c st.visited }
        else
          forEach (edgeBody g fuel t) (g.getOutEdges c)
            { self := st.self, currentPath := st.currentPath ++ [c],
              visited := insert c st.visited }).map
        fun st2 => { st2 with currentPath := st2.currentPath.dropLast,
                              visited := st2.visited.erase c } := rfl

theorem mem_dests {g : ICFG} {a b : NodeID} (h : b ∈ g.getOutEdges a) : b ∈ g.dests := by
  unfold ICFG.getOutEdges at h
  unfold ICFG.dests
  rw [List.mem_toFinset, List.mem_flatten]
  rcases lt_or_le a g.outEdges.length with hlt | hle
  · rw [List.getD_eq_getElem _ _ hlt] at h
    exact ⟨_, List.getElem_mem hlt, h⟩
  · rw [List.getD_eq_default _ _ hle] at h
    simp at h

/-- The edge loop, given what a nested call with `fuel` does: it leaves
`currentPath` and `visited` as they were and appends the suffixes found through
each unvisited destination, in edge order. -/
theorem loop_eq (g : ICFG) (fuel : Nat) (t : NodeID)
    (ih : ∀ c st st2, dfs g fuel c t st = some st2 →
      st2 = st.after c (suffixes g fuel c t st.visited)) :
    ∀ (es : List NodeID) (s s2 : DfsState),
      forEach (edgeBody g fuel t) es s = some s2 →
      s2 = { self := { s.self with paths := s.self.paths ++
                (es.flatMap fun succ =>
                  if succ ∈ s.visited then []
                  else (suffixes g fuel succ t s.visited).map (s.currentPath ++ ·)) },
             currentPath := s.currentPath,
             visited := s.visited } := by
  intro es
  induction es with
  | nil =>
    intro s s2 h
    simp only [forEach, Option.some.injEq] at h
    subst h
    simp
  | cons e es ihes =>
    intro s s2 h
    simp only [forEach] at h
    by_cases hv : e ∈ s.visited
    · have hb : edgeBody g fuel t e s = some s := by simp [edgeBody, hv]
      rw [hb] at h
      simp only [Option.some_bind] at h
      rw [ihes s s2 h]
      simp [List.flatMap_cons, hv]
    · have hb : edgeBody g fuel t e s = dfs g fuel e t s := by simp [edgeBody, hv]
      rw [hb] at h
      cases hd : dfs g fuel e t s with
      | none => rw [hd] at h; simp at h
      | some s1 =>
        rw [hd] at h
        simp only [Option.some_bind] at h
        have h1 := ih e s s1 hd
        have h2 := ihes s1 s2 h
        rw [h2, h1]
        simp [DfsState.after, List.flatMap_cons, hv, Finset.erase_eq_of_not_mem hv]

/-- Whenever `dfs` returns, it returns in the state described by `suffixes`. -/
theorem dfs_eq (g : ICFG) (t : NodeID) :
    ∀ (fuel : Nat) (c : NodeID) (st st2 : DfsState), dfs g fuel c t st = some st2 →
      st2 = st.after c (suffixes g fuel c t st.visited) := by
  intro fuel
  induction fuel with
  | zero => intro c st st2 h; simp [dfs_zero] at h
  | succ fuel ih =>
    intro c st st2 h
    rw [dfs_succ] at h
    by_cases hct : c = t
    · simp only [hct, if_true, Option.map_some', Option.some.injEq] at h
      subst h
      simp [DfsState.after, suffixes, hct, CFGAnalysis.recordPath]
    · simp only [hct, if_false] at h
      cases hl : forEach (edgeBody g fuel t) (g.getOutEdges c)
          { self := st.self, currentPath := st.currentPath ++ [c],
            visited := insert c st.visited } with
      | none => rw [hl] at h; simp at h
      | some s1 =>
        rw [hl] at h
        simp only [Option.map_some', Option.some.injEq] at h
        subst h
        rw [loop_eq g fuel t ih _ _ _ hl]
        simp [DfsState.after, suffixes, hct, List.map_flatMap, Function.comp_def]
        apply List.flatMap_congr
        intro succ _
        split <;> simp

/-- A visited set that gains an unvisited edge destination leaves fewer
destinations unvisited. -/
theorem card_unvisited_lt {g : ICFG} {W : Finset NodeID} {e : NodeID}
    (he : e ∈ g.dests) (hv : e ∉ W) :
    (g.dests \ insert e W).card < (g.dests \ W).card := by
  apply Finset.card_lt_card
  rw [Finset.ssubset_iff_of_subset]
  · exact ⟨e, by simp [he, hv], by simp⟩
  · intro x hx
    simp only [Finset.mem_sdiff, Finset.mem_insert, not_or] at hx ⊢
    exact ⟨hx.1, hx.2.2⟩

/-- The edge loop returns when every nested call it makes returns. -/
theorem loop_isSome (g : ICFG) (fuel : Nat) (t : NodeID)
    (ih : ∀ c st, (g.dests \ insert c st.visited).card < fuel →
      (dfs g fuel c t st).isSome) :
    ∀ (es : List NodeID) (s : DfsState), (∀ e ∈ es, e ∈ g.dests) →
      (g.dests \ s.visited).card ≤ fuel →
      (forEach (edgeBody g fuel t) es s).isSome := by
  intro es
  induction es with
  | nil => intro s _ _; simp [forEach]
  | cons e es ihes =>
    intro s hes hcard
    have hes2 : ∀ x ∈ es, x ∈ g.dests := fun x hx => hes x (List.mem_cons_of_mem _ hx)
    simp only [forEach]
    by_cases hv : e ∈ s.visited
    · have hb : edgeBody g fuel t e s = some s := by simp [edgeBody, hv]
      rw [hb]
      simpa using ihes s hes2 hcard
    · have hb : edgeBody g fuel t e s = dfs g fuel e t s := by simp [edgeBody, hv]
      rw [hb]
      have hlt := card_unvisited_lt (hes e (List.mem_cons_self _ _)) hv
      have hsome := ih e s (lt_of_lt_of_le hlt hcard)
      cases hd : dfs g fuel e t s with
      | none => rw [hd] at hsome; simp at hsome
      | some s1 =>
        simp only [Option.some_bind]
        apply ihes s1 hes2
        rw [dfs_eq g t fuel e s s1 hd]
        simpa [DfsState.after, Finset.erase_eq_of_not_mem hv] using hcard

/-- Termination: `dfs` returns as soon as the fuel exceeds the number of edge
destinations that are still unvisited after the current node is marked. -/
theorem dfs_isSome (g : ICFG) (t : NodeID) :
    ∀ (fuel : Nat) (c : NodeID) (st : DfsState),
      (g.dests \ insert c st.visited).card < fuel → (dfs g fuel c t st).isSome := by
  intro fuel
  induction fuel with
  | zero => intro c st h; omega
  | succ fuel ih =>
    intro c st h
    rw [dfs_succ]
    by_cases hct : c = t
    · simp [hct]
    · simp only [hct, if_false, Option.isSome_map']
      apply loop_isSome g fuel t ih
      · intro e he; exact mem_dests he
      · exact Nat.lt_succ_iff.mp h

theorem card_unvisited_lt_depthBound (g : ICFG) (W : Finset NodeID) :
    (g.dests \ W).card < g.depthBound :=
  Nat.lt_succ_of_le (Finset.card_le_card Finset.sdiff_subset)

/-- With fuel at least the depth bound, `dfs` returns, and in the state
described by `suffixes`. -/
theorem dfs_run (g : ICFG) (fuel : Nat) (c t : NodeID) (st : DfsState)
    (hf : g.depthBound ≤ fuel) :
    dfs g fuel c t st = some (st.after c (suffixes g fuel c t st.visited)) := by
  have hsome := dfs_isSome g t fuel c st
    (lt_of_lt_of_le (card_unvisited_lt_depthBound g _) hf)
  cases hd : dfs g fuel c t st with
  | none => rw [hd] at hsome; simp at hsome
  | some s1 => rw [dfs_eq g t fuel c st s1 hd]

/-! ## What the recorded suffixes are -/

theorem mem_suffixes_succ {g : ICFG} {fuel : Nat} {c t : NodeID} {V : Finset NodeID}
    {q : List NodeID} (hct : c ≠ t) :
    q ∈ suffixes g (fuel + 1) c t V ↔
      ∃ e ∈ g.getOutEdges c, e ∉ insert c V ∧
        ∃ q2 ∈ suffixes g fuel e t (insert c V), q = c :: q2 := by
  simp only [suffixes, hct, if_false, List.mem_flatMap]
  constructor
  · rintro ⟨e, he, hq⟩
    by_cases hv : e ∈ insert c V
    · simp [hv] at hq
    · simp only [hv, if_false, List.mem_map] at hq
      obtain ⟨q2, hq2, rfl⟩ := hq
      exact ⟨e, he, hv, q2, hq2, rfl⟩
  · rintro ⟨e, he, hv, q2, hq2, rfl⟩
    refine ⟨e, he, ?_⟩
    simp only [hv, if_false, List.mem_map]
    exact ⟨q2, hq2, rfl⟩

/-- Every recorded suffix is a simple path from the current node to the target
whose later nodes were unvisited at entry. -/
theorem suffixes_sound (g : ICFG) (t : NodeID) :
    ∀ (fuel : Nat) (c : NodeID) (V : Finset NodeID) (q : List NodeID),
      q ∈ suffixes g fuel c t V →
      ∃ r, q = c :: r ∧ (c :: r).getLast? = some t ∧ (c :: r).Nodup ∧
        List.Chain g.Edge c r ∧ ∀ x ∈ r, x ∉ V := by
  intro fuel
  induction fuel with
  | zero => intro c V q h; simp [suffixes] at h
  | succ fuel ih =>
    intro c V q h
    by_cases hct : c = t
    · simp only [suffixes, hct, if_true, List.mem_singleton] at h
      exact ⟨[], by rw [h, hct], by simp [hct], by simp, List.Chain.nil, by simp⟩
    · obtain ⟨e, he, hv, q2, hq2, rfl⟩ := (mem_suffixes_succ hct).mp h
      obtain ⟨r, rfl, hlast, hnd, hch, hav⟩ := ih e (insert c V) q2 hq2
      simp only [Finset.mem_insert, not_or] at hv
      refine ⟨e :: r, rfl, ?_, ?_, List.Chain.cons he hch, ?_⟩
      · rw [List.getLast?_cons_cons]; exact hlast
      · rw [List.nodup_cons]
        refine ⟨?_, hnd⟩
        intro hmem
        rcases List.mem_cons.mp hmem with h1 | h1
        · exact hv.1 h1.symm
        · exact hav c h1 (Finset.mem_insert_self _ _)
      · intro x hx
        rcases List.mem_cons.mp hx with h1 | h1
        · rw [h1]; exact hv.2
        · intro hxV; exact hav x h1 (Finset.mem_insert_of_mem hxV)

/-- Every simple path from the current node to the target whose later nodes are
unvisited is recorded, once the fuel covers its length. -/
theorem suffixes_complete (g : ICFG) (t : NodeID) :
    ∀ (fuel : Nat) (c : NodeID) (V : Finset NodeID) (r : List NodeID),
      (c :: r).length ≤ fuel → (c :: r).getLast? = some t → (c :: r).Nodup →
      List.Chain g.Edge c r → (∀ x ∈ r, x ∉ V) → c :: r ∈ suffixes g fuel c t V := by
  intro fuel
  induction fuel with
  | zero => intro c V r h; simp at h
  | succ fuel ih =>
    intro c V r hlen hlast hnd hch hav
    cases r with
    | nil =>
      have hct : c = t := by simpa using hlast
      simp [suffixes, hct]
    | cons e r =>
      have hct : c ≠ t := by
        intro hct
        rw [List.getLast?_cons_cons] at hlast
        have hmem : t ∈ e :: r := List.mem_of_mem_getLast? hlast
        rw [List.nodup_cons] at hnd
        exact hnd.1 (hct ▸ hmem)
      rw [List.nodup_cons] at hnd
      rw [List.chain_cons] at hch
      have hec : e ≠ c := fun h => hnd.1 (h ▸ List.mem_cons_self _ _)
      refine (mem_suffixes_succ hct).mpr ⟨e, hch.1, ?_, e :: r, ?_, rfl⟩
      · simp only [Finset.mem_insert, not_or]
        exact ⟨hec, hav e (List.mem_cons_self _ _)⟩
      · apply ih e (insert c V) r
        · simpa using hlen
        · rw [List.getLast?_cons_cons] at hlast; exact hlast
        · exact hnd.2
        · exact hch.2
        · intro x hx
          simp only [Finset.mem_insert, not_or]
          refine ⟨?_, hav x (List.mem_cons_of_mem _ hx)⟩
          intro hxc
          exact hnd.1 (hxc ▸ List.mem_cons_of_mem _ hx)

/-- A simple path is no longer than the depth bound. -/
theorem length_le_depthBound {g : ICFG} {c : NodeID} {r : List NodeID}
    (hnd : (c :: r).Nodup) (hch : List.Chain g.Edge c r) :
    (c :: r).length ≤ g.depthBound := by
  have hsub : r.toFinset ⊆ g.dests := by
    intro x hx
    rw [List.mem_toFinset] at hx
    have hall : ∀ (a : NodeID) (l : List NodeID), List.Chain g.Edge a l →
        ∀ y ∈ l, y ∈ g.dests := by
      intro a l
      induction l generalizing a with
      | nil => intro _ y hy; simp at hy
      | cons b l ihl =>
        intro h y hy
        rw [List.chain_cons] at h
        rcases List.mem_cons.mp hy with h1 | h1
        · rw [h1]; exact mem_dests h.1
        · exact ihl b h.2 y h1
    exact hall c r hch x hx
  have hcard := Finset.card_le_card hsub
  rw [List.toFinset_card_of_nodup (List.nodup_cons.mp hnd).2] at hcard
  simp only [List.length_cons, ICFG.depthBound]
  omega

/-- Without parallel edges, no suffix is recorded twice. -/
theorem suffixes_nodup (g : ICFG) (t : NodeID) (hg : ∀ n, (g.getOutEdges n).Nodup) :
    ∀ (fuel : Nat) (c : NodeID) (V : Finset NodeID), (suffixes g fuel c t V).Nodup := by
  intro fuel
  induction fuel with
  | zero => intro c V; simp [suffixes]
  | succ fuel ih =>
    intro c V
    by_cases hct : c = t
    · simp [suffixes, hct]
    · simp only [suffixes, hct, if_false]
      rw [List.nodup_flatMap]
      constructor
      · intro e _
        split
        · exact List.nodup_nil
        · exact (ih e (insert c V)).map (fun a b h => (List.cons.inj h).2)
      · refine (hg c).imp ?_
        intro a b hab
        simp only [Function.onFun]
        intro q hqa hqb
        by_cases hva : a ∈ insert c V
        · simp [hva] at hqa
        by_cases hvb : b ∈ insert c V
        · simp [hvb] at hqb
        simp only [hva, hvb, if_false, List.mem_map] at hqa hqb
        obtain ⟨qa, hqa1, rfl⟩ := hqa
        obtain ⟨qb, hqb1, hqb2⟩ := hqb
        obtain ⟨ra, rfl, _⟩ := suffixes_sound g t fuel a _ qa hqa1
        obtain ⟨rb, rfl, _⟩ := suffixes_sound g t fuel b _ qb hqb1
        simp only [List.cons.injEq, true_and] at hqb2
        exact hab hqb2.1.symm

/-! ## Top-level searches and `analyze` -/

theorem isSimplePath_iff {g : ICFG} {s t : NodeID} {p : List NodeID} :
    IsSimplePath g s t p ↔
      ∃ r, p = s :: r ∧ (s :: r).getLast? = some t ∧ (s :: r).Nodup ∧
        List.Chain g.Edge s r := by
  constructor
  · rintro ⟨hne, hhead, hlast, hnd, hch⟩
    cases p with
    | nil => exact absurd rfl hne
    | cons a r =>
      simp only [List.head?_cons, Option.some.injEq] at hhead
      subst hhead
      exact ⟨r, rfl, hlast, hnd, hch⟩
  · rintro ⟨r, rfl, hlast, hnd, hch⟩
    exact ⟨by simp, rfl, hlast, hnd, hch⟩

/-- A top-level search returns in a top-level state, with the suffixes found
from the source appended to the result set. -/
theorem dfs_topLevel (g : ICFG) (fuel : Nat) (s t : NodeID) (self : CFGAnalysis)
    (hf : g.depthBound ≤ fuel) :
    dfs g fuel s t (topLevel self) =
      some (topLevel { self with paths := self.paths ++ suffixes g fuel s t ∅ }) := by
  rw [dfs_run g fuel s t _ hf]
  simp [topLevel, DfsState.after]

/-- The paths recorded by one top-level search are exactly the simple paths
from the source to the sink. -/
theorem mem_suffixes_topLevel (g : ICFG) (fuel : Nat) (s t : NodeID) (p : List NodeID)
    (hf : g.depthBound ≤ fuel) :
    p ∈ suffixes g fuel s t ∅ ↔ IsSimplePath g s t p := by
  rw [isSimplePath_iff]
  constructor
  · intro h
    obtain ⟨r, rfl, hlast, hnd, hch, _⟩ := suffixes_sound g t fuel s ∅ p h
    exact ⟨r, rfl, hlast, hnd, hch⟩
  · rintro ⟨r, rfl, hlast, hnd, hch⟩
    exact suffixes_complete g t fuel s ∅ r
      (le_trans (length_le_depthBound hnd hch) hf) hlast hnd hch (by simp)

/-- The loop of `analyze` over the sinks, for a fixed source. -/
theorem sinkLoop_run (g : ICFG) (fuel : Nat) (src : NodeID) (hf : g.depthBound ≤ fuel) :
    ∀ (snks : List NodeID) (a : CFGAnalysis),
      forEach (fun snk (self : CFGAnalysis) =>
          (dfs g fuel src snk { self := self, currentPath := [], visited := ∅ }).map
            fun st => st.self) snks a =
        some { a with paths := a.paths ++ snks.flatMap fun t => suffixes g fuel src t ∅ } := by
  intro snks
  induction snks with
  | nil => intro a; simp [forEach]
  | cons t snks ih =>
    intro a
    have hd := dfs_topLevel g fuel src t a hf
    simp only [topLevel] at hd
    simp only [forEach, hd, Option.map_some', Option.some_bind, ih]
    simp [List.flatMap_cons]

/-- The loop of `analyze` over the sources. -/
theorem sourceLoop_run (g : ICFG) (fuel : Nat) (hf : g.depthBound ≤ fuel) :
    ∀ (srcs : List NodeID) (a : CFGAnalysis),
      forEach (fun src (self : CFGAnalysis) =>
          forEach (fun snk (self : CFGAnalysis) =>
              (dfs g fuel src snk { self := self, currentPath := [], visited := ∅ }).map
                fun st => st.self) self.sinks self) srcs a =
        some { a with paths := a.paths ++
          srcs.flatMap fun s => a.sinks.flatMap fun t => suffixes g fuel s t ∅ } := by
  intro srcs
  induction srcs with
  | nil => intro a; simp [forEach]
  | cons s srcs ih =>
    intro a
    simp only [forEach, sinkLoop_run g fuel s hf, Option.some_bind, ih]
    simp [List.flatMap_cons]

/-- With fuel at least the depth bound, `analyze` returns, having appended the
per-pair lists source by source and, for each source, sink by sink. -/
theorem analyze_run (g : ICFG) (fuel : Nat) (self : CFGAnalysis)
    (hf : g.depthBound ≤ fuel) :
    analyze g fuel self =
      some { self with paths := self.paths ++
        self.sources.flatMap fun s => self.sinks.flatMap fun t => suffixes g fuel s t ∅ } :=
  sourceLoop_run g fuel hf self.sources self

/-- More fuel does not change what a returning search does. -/
theorem dfs_mono (g : ICFG) (t : NodeID) :
    ∀ (fuel : Nat) (c : NodeID) (st st2 : DfsState),
      dfs g fuel c t st = some st2 → dfs g (fuel + 1) c t st = some st2 := by
  intro fuel
  induction fuel with
  | zero => intro c st st2 h; simp [dfs_zero] at h
  | succ fuel ih =>
    intro c st st2 h
    rw [dfs_succ] at h ⊢
    by_cases hct : c = t
    · simpa [hct] using h
    · simp only [hct, if_false] at h ⊢
      have hloop : ∀ (es : List NodeID) (s s1 : DfsState),
          forEach (edgeBody g fuel t) es s = some s1 →
          forEach (edgeBody g (fuel + 1) t) es s = some s1 := by
        intro es
        induction es with
        | nil => intro s s1 h1; simpa [forEach] using h1
        | cons e es ihes =>
          intro s s1 h1
          simp only [forEach] at h1 ⊢
          cases hb : edgeBody g fuel t e s with
          | none => rw [hb] at h1; simp at h1
          | some s0 =>
            rw [hb] at h1
            simp only [Option.some_bind] at h1
            have hb2 : edgeBody g (fuel + 1) t e s = some s0 := by
              unfold edgeBody at hb ⊢
              split
              · rename_i hv; rw [if_pos hv] at hb; exact ih e s s0 hb
              · rename_i hv; rw [if_neg hv] at hb; exact hb
            rw [hb2]
            simpa using ihes s0 s1 h1
      cases hl : forEach (edgeBody g fuel t) (g.getOutEdges c)
          { self := st.self, currentPath := st.currentPath ++ [c],
            visited := insert c st.visited } with
      | none => rw [hl] at h; simp at h
      | some s1 => rw [hl] at h; rw [hloop _ _ _ hl]; exact h

theorem dfs_mono_le (g : ICFG) (t : NodeID) (fuel fuel2 : Nat) (c : NodeID)
    (st st2 : DfsState) (hle : fuel ≤ fuel2) (h : dfs g fuel c t st = some st2) :
    dfs g fuel2 c t st = some st2 := by
  induction hle with
  | refl => exact h
  | step _ ih => exact dfs_mono g t _ c st st2 ih

/-- An entry of a duplicate-free list occurs in it exactly once. -/
theorem count_eq_one_of_nodup {α : Type} [BEq α] [LawfulBEq α] {a : α} :
    ∀ {l : List α}, l.Nodup → a ∈ l → l.count a = 1 := by
  intro l
  induction l with
  | nil => intro _ h; simp at h
  | cons b l ih =>
    intro hnd hmem
    rw [List.nodup_cons] at hnd
    rw [List.count_cons]
    by_cases hab : b = a
    · subst hab
      simp [List.count_eq_zero_of_not_mem hnd.1]
    · have hmem2 : a ∈ l := by
        rcases List.mem_cons.mp hmem with h | h
        · exact absurd h.symm hab
        · exact h
      simp [ih hnd.2 hmem2, hab]

/-- A recorded suffix witnesses that the target is reachable. -/
theorem reachable_of_mem_suffixes {g : ICFG} {fuel : Nat} {s t : NodeID}
    {V : Finset NodeID} {q : List NodeID} (h : q ∈ suffixes g fuel s t V) :
    Relation.ReflTransGen g.Edge s t := by
  obtain ⟨r, _, hlast, _, hch, _⟩ := suffixes_sound g t fuel s V q h
  apply List.relationReflTransGen_of_exists_chain r hch
  rw [List.getLast?_eq_getLast _ (List.cons_ne_nil _ _)] at hlast
  exact Option.some.inj hlast

/-- Dropping the elements that contribute nothing does not change a
concatenation. -/
theorem flatMap_filter_of_nil {α β : Type} (f : α → List β) (keep : α → Bool) :
    ∀ l : List α, (∀ x ∈ l, keep x = false → f x = []) →
      (l.filter keep).flatMap f = l.flatMap f := by
  intro l
  induction l with
  | nil => intro _; rfl
  | cons x l ih =>
    intro h
    have ih2 := ih (fun y hy => h y (List.mem_cons_of_mem _ hy))
    cases hk : keep x with
    | true => simp [List.filter_cons, hk, List.flatMap_cons, ih2]
    | false =>
      simp [List.filter_cons, hk, List.flatMap_cons, ih2, h x (List.mem_cons_self _ _) hk]

theorem flatMap_product {α β γ : Type} (f : α × β → List γ) (l₁ : List α) (l₂ : List β) :
    (List.product l₁ l₂).flatMap f = l₁.flatMap fun a => l₂.flatMap fun b => f (a, b) := by
  simp [List.product, List.flatMap_assoc, List.flatMap_map]

/-! ## The claims -/

/-- C1 (completeness): with fuel at least the depth bound, the top-level search
`dfs(s, t, empty path, empty visited)` returns, restoring the empty path and
the empty visited set, and every simple path from `s` to `t` is among the
paths it appended to the result set. -/
theorem dfs_complete (g : ICFG) (fuel : Nat) (s t : NodeID) (self : CFGAnalysis)
    (p : List NodeID) (hf : g.depthBound ≤ fuel) (hp : IsSimplePath g s t p) :
    ∃ recorded, dfs g fuel s t (topLevel self) =
        some (topLevel { self with paths := self.paths ++ recorded }) ∧
      p ∈ recorded :=
  ⟨suffixes g fuel s t ∅, dfs_topLevel g fuel s t self hf,
    (mem_suffixes_topLevel g fuel s t p hf).mpr hp⟩

/-- Scenario 1, graph A->B->C with s = A and t = C: the simple path [A,B,C] is
recorded, and it is the only recorded path. -/
theorem dfs_complete_witness :
    ICFG.depthBound ⟨[[1], [2], []]⟩ ≤ 3 ∧ IsSimplePath ⟨[[1], [2], []]⟩ 0 2 [0, 1, 2] ∧
    (∃ recorded, dfs ⟨[[1], [2], []]⟩ 3 0 2 (topLevel ⟨[0], [2], []⟩) =
        some (topLevel { (⟨[0], [2], []⟩ : CFGAnalysis) with paths := [] ++ recorded }) ∧
      [0, 1, 2] ∈ recorded) ∧
    dfs ⟨[[1], [2], []]⟩ 3 0 2 (topLevel ⟨[0], [2], []⟩) =
      some (topLevel ⟨[0], [2], [[0, 1, 2]]⟩) :=
  ⟨by decide, by decide,
    dfs_complete ⟨[[1], [2], []]⟩ 3 0 2 ⟨[0], [2], []⟩ [0, 1, 2] (by decide) (by decide),
    by decide⟩

/-- C2 (soundness): with fuel at least the depth bound, `analyze` returns having
appended a list of paths each of which is non-empty, contains no node twice,
has every consecutive pair joined by an outgoing edge, starts at a node of
`sources` and ends at a node of `sinks`. -/
theorem analyze_sound (g : ICFG) (fuel : Nat) (self : CFGAnalysis)
    (hf : g.depthBound ≤ fuel) :
    ∃ appended, analyze g fuel self =
        some { self with paths := self.paths ++ appended } ∧
      ∀ p ∈ appended, p ≠ [] ∧ p.Nodup ∧ p.Chain' g.Edge ∧
        (∃ s ∈ self.sources, p.head? = some s) ∧
        (∃ t ∈ self.sinks, p.getLast? = some t) := by
  refine ⟨_, analyze_run g fuel self hf, ?_⟩
  intro p hp
  simp only [List.mem_flatMap] at hp
  obtain ⟨s, hs, t, ht, hpst⟩ := hp
  obtain ⟨hne, hhead, hlast, hnd, hch⟩ := (mem_suffixes_topLevel g fuel s t p hf).mp hpst
  exact ⟨hne, hnd, hch, ⟨s, hs, hhead⟩, ⟨t, ht, hlast⟩⟩

/-- The diamond A->B, A->C, B->D, C->D with an extra isolated sink E:
`analyze` from sources [A] to sinks [D, E] appends sound paths only. -/
theorem analyze_sound_witness :
    ICFG.depthBound ⟨[[1, 2], [3], [3], []]⟩ ≤ 4 ∧
    ∃ appended, analyze ⟨[[1, 2], [3], [3], []]⟩ 4 ⟨[0], [3, 4], []⟩ =
        some { (⟨[0], [3, 4], []⟩ : CFGAnalysis) with paths := [] ++ appended } ∧
      ∀ p ∈ appended, p ≠ [] ∧ p.Nodup ∧
        p.Chain' (ICFG.Edge ⟨[[1, 2], [3], [3], []]⟩) ∧
        (∃ s ∈ [0], p.head? = some s) ∧ (∃ t ∈ [3, 4], p.getLast? = some t) :=
  ⟨by decide, analyze_sound ⟨[[1, 2], [3], [3], []]⟩ 4 ⟨[0], [3, 4], []⟩ (by decide)⟩

/-- C3, as stated, fails: node A has two outgoing edges to B, and the top-level
search from A to B records the simple path [A,B] twice. -/
theorem dfs_parallel_edges_twice :
    IsSimplePath ⟨[[1, 1]]⟩ 0 1 [0, 1] ∧
    ICFG.depthBound ⟨[[1, 1]]⟩ ≤ 2 ∧
    dfs ⟨[[1, 1]]⟩ 2 0 1 (topLevel ⟨[0], [1], []⟩) =
      some (topLevel ⟨[0], [1], [[0, 1], [0, 1]]⟩) ∧
    List.count [0, 1] [[0, 1], [0, 1]] = 2 ∧
    ¬ List.Nodup [[0, 1], [0, 1]] := by
  decide

/-- C3 (amended): when no node has two outgoing edges to the same destination,
the top-level search `dfs(s, t, empty path, empty visited)` returns (fuel at
least the depth bound) with a list of appended paths that has no duplicate
entry and in which every simple path from `s` to `t` occurs exactly once. -/
theorem dfs_exactly_once (g : ICFG) (fuel : Nat) (s t : NodeID) (self : CFGAnalysis)
    (hg : ∀ n, (g.getOutEdges n).Nodup) (hf : g.depthBound ≤ fuel) :
    ∃ recorded, dfs g fuel s t (topLevel self) =
        some (topLevel { self with paths := self.paths ++ recorded }) ∧
      recorded.Nodup ∧ ∀ p, IsSimplePath g s t p → recorded.count p = 1 := by
  refine ⟨suffixes g fuel s t ∅, dfs_topLevel g fuel s t self hf,
    suffixes_nodup g t hg fuel s ∅, ?_⟩
  intro p hp
  exact count_eq_one_of_nodup (suffixes_nodup g t hg fuel s ∅)
    ((mem_suffixes_topLevel g fuel s t p hf).mpr hp)

/-- Scenario 3, the diamond A->B, A->C, B->D, C->D, which has no parallel
edges: the search from A to D records [A,B,D] and [A,C,D], each once. -/
theorem dfs_exactly_once_witness :
    (∀ n, (ICFG.getOutEdges ⟨[[1, 2], [3], [3], []]⟩ n).Nodup) ∧
    ICFG.depthBound ⟨[[1, 2], [3], [3], []]⟩ ≤ 4 ∧
    (∃ recorded, dfs ⟨[[1, 2], [3], [3], []]⟩ 4 0 3 (topLevel ⟨[0], [3], []⟩) =
        some (topLevel { (⟨[0], [3], []⟩ : CFGAnalysis) with paths := [] ++ recorded }) ∧
      recorded.Nodup ∧
      ∀ p, IsSimplePath ⟨[[1, 2], [3], [3], []]⟩ 0 3 p → recorded.count p = 1) ∧
    dfs ⟨[[1, 2], [3], [3], []]⟩ 4 0 3 (topLevel ⟨[0], [3], []⟩) =
      some (topLevel ⟨[0], [3], [[0, 1, 3], [0, 2, 3]]⟩) := by
  have hg : ∀ n, (ICFG.getOutEdges ⟨[[1, 2], [3], [3], []]⟩ n).Nodup := by
    intro n
    rcases n with _ | _ | _ | _ | n <;> simp [ICFG.getOutEdges]
  exact ⟨hg, by decide,
    dfs_exactly_once ⟨[[1, 2], [3], [3], []]⟩ 4 0 3 ⟨[0], [3], []⟩ hg (by decide), by decide⟩

/-- C4 (termination on cyclic input): for every graph, current node, target,
path and visited set, `dfs` returns, with one and the same final state for
every fuel from the depth bound on; a call returns as soon as the fuel exceeds
the number of edge destinations left unvisited once the current node is
marked, a number that shrinks at every nesting level. -/
theorem dfs_terminates (g : ICFG) (c t : NodeID) (st : DfsState) :
    (∃ st2, ∀ fuel, g.depthBound ≤ fuel → dfs g fuel c t st = some st2) ∧
    ∀ fuel, (g.dests \ insert c st.visited).card < fuel → (dfs g fuel c t st).isSome :=
  ⟨⟨_, fun fuel hf =>
      dfs_mono_le g t g.depthBound fuel c st _ hf (dfs_run g g.depthBound c t st le_rfl)⟩,
    fun fuel h => dfs_isSome g t fuel c st h⟩

/-- Scenario 2, the cycle A->B, B->A, B->C with s = A and t = C: the search
returns, and its result set is [[A,B,C]]. -/
theorem dfs_terminates_witness :
    (∃ st2, ∀ fuel, ICFG.depthBound ⟨[[1], [0, 2], []]⟩ ≤ fuel →
      dfs ⟨[[1], [0, 2], []]⟩ fuel 0 2 (topLevel ⟨[0], [2], []⟩) = some st2) ∧
    ICFG.depthBound ⟨[[1], [0, 2], []]⟩ = 4 ∧
    dfs ⟨[[1], [0, 2], []]⟩ 4 0 2 (topLevel ⟨[0], [2], []⟩) =
      some (topLevel ⟨[0], [2], [[0, 1, 2]]⟩) :=
  ⟨(dfs_terminates ⟨[[1], [0, 2], []]⟩ 0 2 (topLevel ⟨[0], [2], []⟩)).1, by decide, by decide⟩

/-- C5 (result-set order): there is, for each pair `(s, t)`, the list `per s t`
that an independent top-level search `dfs(s, t, empty path, empty visited)`
appends to whatever result set it starts from, and `analyze` appends exactly
the concatenation of these lists over the sources (outer) and the sinks
(inner), in list order. -/
theorem analyze_order (g : ICFG) (fuel : Nat) (self : CFGAnalysis)
    (hf : g.depthBound ≤ fuel) :
    ∃ per : NodeID → NodeID → List (List NodeID),
      (∀ s t (a : CFGAnalysis), dfs g fuel s t (topLevel a) =
        some (topLevel { a with paths := a.paths ++ per s t })) ∧
      analyze g fuel self = some { self with
        paths := self.paths ++
          self.sources.flatMap fun s => self.sinks.flatMap fun t => per s t } :=
  ⟨fun s t => suffixes g fuel s t ∅, fun s t a => dfs_topLevel g fuel s t a hf,
    analyze_run g fuel self hf⟩

/-- The diamond A->B, A->C, B->D, C->D with sources [A, B] and sinks [D, A]:
the pairs are searched in the order (A,D), (A,A), (B,D), (B,A). -/
theorem analyze_order_witness :
    ICFG.depthBound ⟨[[1, 2], [3], [3], []]⟩ ≤ 4 ∧
    (∃ per : NodeID → NodeID → List (List NodeID),
      (∀ s t (a : CFGAnalysis), dfs ⟨[[1, 2], [3], [3], []]⟩ 4 s t (topLevel a) =
        some (topLevel { a with paths := a.paths ++ per s t })) ∧
      analyze ⟨[[1, 2], [3], [3], []]⟩ 4 ⟨[0, 1], [3, 0], [[7]]⟩ =
        some { (⟨[0, 1], [3, 0], [[7]]⟩ : CFGAnalysis) with
          paths := [[7]] ++ [0, 1].flatMap fun s => [3, 0].flatMap fun t => per s t }) ∧
    analyze ⟨[[1, 2], [3], [3], []]⟩ 4 ⟨[0, 1], [3, 0], [[7]]⟩ =
      some ⟨[0, 1], [3, 0], [[7], [0, 1, 3], [0, 2, 3], [0], [1, 3]]⟩ :=
  ⟨by decide, analyze_order ⟨[[1, 2], [3], [3], []]⟩ 4 ⟨[0, 1], [3, 0], [[7]]⟩ (by decide),
    by decide⟩

/-- C6 (empty configuration): if `sources` or `sinks` is empty, `analyze`
returns, whatever the fuel, and leaves the analyzer, hence the result set, as
it was. -/
theorem analyze_empty (g : ICFG) (fuel : Nat) (self : CFGAnalysis)
    (h : self.sources = [] ∨ self.sinks = []) : analyze g fuel self = some self := by
  unfold analyze
  rcases h with h | h
  · rw [h]; rfl
  · generalize self.sources = srcs
    induction srcs with
    | nil => rfl
    | cons s srcs ih => simp only [forEach, h, Option.some_bind, ih]

/-- Scenario 4: no source, one sink, on a graph with an edge. -/
theorem analyze_empty_witness :
    ((⟨[], [1], []⟩ : CFGAnalysis).sources = [] ∨ (⟨[], [1], []⟩ : CFGAnalysis).sinks = []) ∧
    analyze ⟨[[1]]⟩ 0 ⟨[], [1], []⟩ = some ⟨[], [1], []⟩ :=
  ⟨Or.inl rfl, analyze_empty ⟨[[1]]⟩ 0 ⟨[], [1], []⟩ (Or.inl rfl)⟩

/-- C7 (source equal to sink): on every graph, `dfs(s, s, empty path, empty
visited)` returns with exactly the one-node path [s] appended.  It does so with
a single level of recursion, so no nested call is made, and the final state
does not depend on the graph: no outgoing edge of `s` is explored. -/
theorem dfs_source_is_sink (g : ICFG) (fuel : Nat) (s : NodeID) (self : CFGAnalysis) :
    dfs g (fuel + 1) s s (topLevel self) =
      some (topLevel { self with paths := self.paths ++ [[s]] }) := by
  rw [dfs_succ]
  simp [topLevel, CFGAnalysis.recordPath]

/-- Scenario 5: a single node A with a self-loop, A being source and sink. -/
theorem dfs_source_is_sink_witness :
    dfs ⟨[[0]]⟩ 1 0 0 (topLevel ⟨[0], [0], []⟩) = some (topLevel ⟨[0], [0], [[0]]⟩) ∧
    analyze ⟨[[0]]⟩ 1 ⟨[0], [0], []⟩ = some ⟨[0], [0], [[0]]⟩ :=
  ⟨dfs_source_is_sink ⟨[[0]]⟩ 0 0 ⟨[0], [0], []⟩, by decide⟩

/-- C8 (unreachable sink): if `t` is not reachable from `s` along outgoing
edges, the top-level search from `s` to `t` returns without recording a path,
and `analyze` appends exactly the concatenation of the per-pair lists of the
pairs other than `(s, t)`, in their order. -/
theorem unreachable_sink (g : ICFG) (fuel : Nat) (s t : NodeID) (self : CFGAnalysis)
    (hf : g.depthBound ≤ fuel) (hun : ¬ Relation.ReflTransGen g.Edge s t) :
    (∀ a : CFGAnalysis, dfs g fuel s t (topLevel a) = some (topLevel a)) ∧
    ∃ per : NodeID → NodeID → List (List NodeID),
      (∀ s2 t2 (a : CFGAnalysis), dfs g fuel s2 t2 (topLevel a) =
        some (topLevel { a with paths := a.paths ++ per s2 t2 })) ∧
      analyze g fuel self = some { self with
        paths := self.paths ++
          ((List.product self.sources self.sinks).filter fun q => decide (q ≠ (s, t))).flatMap
            fun q => per q.1 q.2 } := by
  have hnil : suffixes g fuel s t ∅ = [] := by
    apply List.eq_nil_iff_forall_not_mem.mpr
    intro q hq
    exact hun (reachable_of_mem_suffixes hq)
  refine ⟨?_, fun s2 t2 => suffixes g fuel s2 t2 ∅,
    fun s2 t2 a => dfs_topLevel g fuel s2 t2 a hf, ?_⟩
  · intro a
    rw [dfs_topLevel g fuel s t a hf, hnil]
    simp
  · rw [analyze_run g fuel self hf,
      flatMap_filter_of_nil (fun q : NodeID × NodeID => suffixes g fuel q.1 q.2 ∅),
      flatMap_product]
    intro q _ hq
    have hqe : q = (s, t) := by simpa using hq
    rw [hqe]
    exact hnil

/-- Graph A->B with an isolated node C, sources [A], sinks [C, B]: C is not
reachable from A, the pair (A, C) records nothing and the pair (A, B) records
[A,B]. -/
theorem unreachable_sink_witness :
    ICFG.depthBound ⟨[[1], [], []]⟩ ≤ 2 ∧
    ¬ Relation.ReflTransGen (ICFG.Edge ⟨[[1], [], []]⟩) 0 2 ∧
    (∀ a : CFGAnalysis, dfs ⟨[[1], [], []]⟩ 2 0 2 (topLevel a) = some (topLevel a)) ∧
    analyze ⟨[[1], [], []]⟩ 2 ⟨[0], [2, 1], []⟩ = some ⟨[0], [2, 1], [[0, 1]]⟩ := by
  have hun : ¬ Relation.ReflTransGen (ICFG.Edge ⟨[[1], [], []]⟩) 0 2 := by
    intro h
    rcases Relation.ReflTransGen.cases_tail h with h0 | ⟨b, _, hb⟩
    · exact absurd h0 (by decide)
    · rcases b with _ | _ | _ | b <;> simp [ICFG.Edge, ICFG.getOutEdges] at hb
  exact ⟨by decide, hun,
    (unreachable_sink ⟨[[1], [], []]⟩ 2 0 2 ⟨[0], [2, 1], []⟩ (by decide) hun).1, by decide⟩

/-- C9 (accumulation): for fixed graph, sources and sinks there is one list
`appended` such that `analyze`, started on any prior result set `R`, returns
with result set `R ++ appended` and with `sources` and `sinks` unchanged; so
two calls in a row on a fresh analyzer leave `appended ++ appended`. -/
theorem analyze_accumulates (g : ICFG) (fuel : Nat) (sources sinks : List NodeID)
    (hf : g.depthBound ≤ fuel) :
    ∃ appended : List (List NodeID),
      (∀ R, analyze g fuel ⟨sources, sinks, R⟩ = some ⟨sources, sinks, R ++ appended⟩) ∧
      (analyze g fuel ⟨sources, sinks, []⟩).bind (analyze g fuel) =
        some ⟨sources, sinks, appended ++ appended⟩ := by
  refine ⟨sources.flatMap fun s => sinks.flatMap fun t => suffixes g fuel s t ∅, ?_, ?_⟩
  · intro R
    rw [analyze_run g fuel _ hf]
  · rw [analyze_run g fuel _ hf, Option.some_bind, analyze_run g fuel _ hf]
    simp

/-- The diamond A->B, A->C, B->D, C->D searched twice from A to D. -/
theorem analyze_accumulates_witness :
    ICFG.depthBound ⟨[[1, 2], [3], [3], []]⟩ ≤ 4 ∧
    (∃ appended : List (List NodeID),
      (∀ R, analyze ⟨[[1, 2], [3], [3], []]⟩ 4 ⟨[0], [3], R⟩ =
        some ⟨[0], [3], R ++ appended⟩) ∧
      (analyze ⟨[[1, 2], [3], [3], []]⟩ 4 ⟨[0], [3], []⟩).bind
          (analyze ⟨[[1, 2], [3], [3], []]⟩ 4) =
        some ⟨[0], [3], appended ++ appended⟩) ∧
    (analyze ⟨[[1, 2], [3], [3], []]⟩ 4 ⟨[0], [3], []⟩).bind
        (analyze ⟨[[1, 2], [3], [3], []]⟩ 4) =
      some ⟨[0], [3], [[0, 1, 3], [0, 2, 3], [0, 1, 3], [0, 2, 3]]⟩ :=
  ⟨by decide, analyze_accumulates ⟨[[1, 2], [3], [3], []]⟩ 4 [0] [3] (by decide), by decide⟩

/-! ## `dumpPaths` -/

theorem foldl_append_eq (l : List String) :
    ∀ acc : String, l.foldl (fun r s => r ++ s) acc = acc ++ String.join l := by
  induction l with
  | nil => intro acc; simp [String.join]
  | cons a l ih =>
    intro acc
    simp only [String.join, List.foldl_cons]
    rw [ih (acc ++ a), ih ("" ++ a), String.empty_append, String.append_assoc]

theorem join_cons (a : String) (l : List String) :
    String.join (a :: l) = a ++ String.join l := by
  simp only [String.join, List.foldl_cons]
  rw [foldl_append_eq l ("" ++ a), String.empty_append]
  rfl

theorem dumpNodes_eq (path : List NodeID) :
    ∀ errs : String, dumpNodes path errs = errs ++ renderNodes path := by
  induction path with
  | nil => intro errs; simp [dumpNodes, renderNodes, String.join]
  | cons n path ih =>
    intro errs
    have h := ih (errs ++ decimal n ++ " -> ")
    simp only [dumpNodes, renderNodes, List.foldl_cons, List.map_cons, join_cons] at h ⊢
    rw [h]
    simp only [String.append_assoc]

theorem dumpLoop_eq (paths : List (List NodeID)) :
    ∀ (remaining i : Nat) (errs : String), i + remaining = paths.length →
      dumpLoop paths remaining i errs = errs ++
        String.join (((paths.drop i).enumFrom (i + 1)).map fun ip => renderLine ip.1 ip.2) := by
  intro remaining
  induction remaining with
  | zero =>
    intro i errs h
    have hi : paths.length ≤ i := by omega
    simp [dumpLoop, List.drop_of_length_le hi, String.join]
  | succ remaining ih =>
    intro i errs h
    have hi : i < paths.length := by omega
    rw [List.drop_eq_getElem_cons hi]
    simp only [dumpLoop, hi, dite_true, List.enumFrom_cons, List.map_cons, join_cons]
    rw [ih (i + 1) _ (by omega), dumpNodes_eq]
    simp only [renderLine, String.append_assoc]

/-- C10 (rendering): `dumpPaths` appends to the stream exactly the text
"\nTotal paths found: n\n" followed, for each path in result-set order and
numbered from 1, by "Path i: ", each node id in path order followed by " -> ",
and "END\n"; and it leaves the analyzer, hence the result set, unchanged. -/
theorem dumpPaths_renders (self : CFGAnalysis) (errs : String) :
    self.dumpPaths errs = (errs ++ renderPaths self.paths, self) := by
  simp only [CFGAnalysis.dumpPaths, renderPaths]
  rw [dumpLoop_eq self.paths self.paths.length 0 _ (by omega)]
  simp only [List.drop_zero, String.append_assoc, Nat.zero_add]

/-- The dump of the diamond's two paths and of a path with a two-digit id. -/
theorem dumpPaths_renders_witness :
    (⟨[0], [3], [[0, 1, 3], [0, 2, 3], [10]]⟩ : CFGAnalysis).dumpPaths "" =
      ("" ++ renderPaths [[0, 1, 3], [0, 2, 3], [10]],
        ⟨[0], [3], [[0, 1, 3], [0, 2, 3], [10]]⟩) ∧
    (⟨[0], [3], [[0, 1, 3], [0, 2, 3], [10]]⟩ : CFGAnalysis).dumpPaths "" =
      ("\nTotal paths found: 3\nPath 1: 0 -> 1 -> 3 -> END\nPath 2: 0 -> 2 -> 3 -> END\nPath 3: 10 -> END\n",
        ⟨[0], [3], [[0, 1, 3], [0, 2, 3], [10]]⟩) ∧
    renderPaths [[0, 1, 3], [0, 2, 3], [10]] =
      "\nTotal paths found: 3\nPath 1: 0 -> 1 -> 3 -> END\nPath 2: 0 -> 2 -> 3 -> END\nPath 3: 10 -> END\n" :=
  ⟨dumpPaths_renders ⟨[0], [3], [[0, 1, 3], [0, 2, 3], [10]]⟩ "", by decide, by decide⟩

/-! ## The search step in general -/

/-- A search entered on an unvisited node returns with `currentPath` and
`visited` as they were, having appended the recorded suffixes behind the path
at entry. -/
theorem dfs_unvisited (g : ICFG) (fuel : Nat) (c t : NodeID) (st : DfsState)
    (hc : c ∉ st.visited) (hf : g.depthBound ≤ fuel) :
    dfs g fuel c t st =
      some { self := { st.self with
               paths := st.self.paths ++
                 (suffixes g fuel c t st.visited).map (st.currentPath ++ ·) },
             currentPath := st.currentPath,
             visited := st.visited } := by
  rw [dfs_run g fuel c t st hf]
  simp [DfsState.after, Finset.erase_eq_of_not_mem hc]

/-- C11 (backtracking): a call of `dfs` on a node that is not in `visited`
returns (fuel at least the depth bound) with `currentPath` and `visited` exactly
as they were before the call, and with the prior result set kept in front of
whatever was recorded beneath the call. -/
theorem dfs_restores (g : ICFG) (fuel : Nat) (c t : NodeID) (st : DfsState)
    (hc : c ∉ st.visited) (hf : g.depthBound ≤ fuel) :
    ∃ st2 recorded, dfs g fuel c t st = some st2 ∧
      st2.currentPath = st.currentPath ∧ st2.visited = st.visited ∧
      st2.self.paths = st.self.paths ++ recorded :=
  ⟨_, _, dfs_unvisited g fuel c t st hc hf, rfl, rfl, rfl⟩

/-- The diamond A->B, A->C, B->D, C->D entered at A with path [9] and visited
set {9}: two paths are recorded beneath the call, and path and visited set come
back as [9] and {9}. -/
theorem dfs_restores_witness :
    (0 ∉ ({9} : Finset NodeID)) ∧ ICFG.depthBound ⟨[[1, 2], [3], [3], []]⟩ ≤ 4 ∧
    (∃ st2 recorded,
      dfs ⟨[[1, 2], [3], [3], []]⟩ 4 0 3 ⟨⟨[], [], [[7]]⟩, [9], {9}⟩ = some st2 ∧
      st2.currentPath = [9] ∧ st2.visited = {9} ∧ st2.self.paths = [[7]] ++ recorded) ∧
    dfs ⟨[[1, 2], [3], [3], []]⟩ 4 0 3 ⟨⟨[], [], [[7]]⟩, [9], {9}⟩ =
      some ⟨⟨[], [], [[7], [9, 0, 1, 3], [9, 0, 2, 3]]⟩, [9], {9}⟩ :=
  ⟨by decide, by decide,
    dfs_restores ⟨[[1, 2], [3], [3], []]⟩ 4 0 3 ⟨⟨[], [], [[7]]⟩, [9], {9}⟩
      (by decide) (by decide),
    by decide⟩

/-- C14 (generalised search step): a call `dfs(c, t, P, V)` with `c` not in
`V` returns (fuel at least the depth bound) with path `P` and visited set `V`,
keeping the prior result set and appending a list whose entries are exactly the
sequences `P ++ q`, `q` a simple path from `c` to `t` none of whose nodes is in
`V`; so every recorded path has `P` as a prefix, and what was recorded is a
value that the later pops do not touch. -/
theorem dfs_step_exact (g : ICFG) (fuel : Nat) (c t : NodeID) (st : DfsState)
    (hc : c ∉ st.visited) (hf : g.depthBound ≤ fuel) :
    ∃ recorded,
      dfs g fuel c t st =
        some { self := { st.self with paths := st.self.paths ++ recorded },
               currentPath := st.currentPath,
               visited := st.visited } ∧
      ∀ p, p ∈ recorded ↔
        ∃ q, p = st.currentPath ++ q ∧ IsSimplePath g c t q ∧ ∀ x ∈ q, x ∉ st.visited := by
  refine ⟨_, dfs_unvisited g fuel c t st hc hf, ?_⟩
  intro p
  simp only [List.mem_map]
  constructor
  · rintro ⟨q, hq, rfl⟩
    obtain ⟨r, rfl, hlast, hnd, hch, hav⟩ := suffixes_sound g t fuel c st.visited q hq
    refine ⟨c :: r, rfl, isSimplePath_iff.mpr ⟨r, rfl, hlast, hnd, hch⟩, ?_⟩
    intro x hx
    rcases List.mem_cons.mp hx with h | h
    · rw [h]; exact hc
    · exact hav x h
  · rintro ⟨q, rfl, hq, hav⟩
    obtain ⟨r, rfl, hlast, hnd, hch⟩ := isSimplePath_iff.mp hq
    exact ⟨c :: r, suffixes_complete g t fuel c st.visited r
      (le_trans (length_le_depthBound hnd hch) hf) hlast hnd hch
      (fun x hx => hav x (List.mem_cons_of_mem _ hx)), rfl⟩

/-- The diamond A->B, A->C, B->D, C->D entered at A with path [9, 1] and
visited set {9, 1}: B is visited, so only the path through C is recorded,
behind the prefix [9, 1]. -/
theorem dfs_step_exact_witness :
    (0 ∉ ({9, 1} : Finset NodeID)) ∧ ICFG.depthBound ⟨[[1, 2], [3], [3], []]⟩ ≤ 4 ∧
    (∃ recorded,
      dfs ⟨[[1, 2], [3], [3], []]⟩ 4 0 3 ⟨⟨[], [], [[7]]⟩, [9, 1], {9, 1}⟩ =
        some { self := { (⟨[], [], [[7]]⟩ : CFGAnalysis) with paths := [[7]] ++ recorded },
               currentPath := [9, 1],
               visited := {9, 1} } ∧
      ∀ p, p ∈ recorded ↔
        ∃ q, p = [9, 1] ++ q ∧ IsSimplePath ⟨[[1, 2], [3], [3], []]⟩ 0 3 q ∧
          ∀ x ∈ q, x ∉ ({9, 1} : Finset NodeID)) ∧
    dfs ⟨[[1, 2], [3], [3], []]⟩ 4 0 3 ⟨⟨[], [], [[7]]⟩, [9, 1], {9, 1}⟩ =
      some ⟨⟨[], [], [[7], [9, 1, 0, 2, 3]]⟩, [9, 1], {9, 1}⟩ :=
  ⟨by decide, by decide,
    dfs_step_exact ⟨[[1, 2], [3], [3], []]⟩ 4 0 3 ⟨⟨[], [], [[7]]⟩, [9, 1], {9, 1}⟩
      (by decide) (by decide),
    by decide⟩

/-- C15 (duplicate-free result set): when no node has two outgoing edges to the
same destination and `sources` and `sinks` each contain no node twice,
`analyze` on a fresh analyzer returns (fuel at least the depth bound) with a
result set that contains no path twice. -/
theorem analyze_nodup (g : ICFG) (fuel : Nat) (sources sinks : List NodeID)
    (hg : ∀ n, (g.getOutEdges n).Nodup) (hs : sources.Nodup) (hk : sinks.Nodup)
    (hf : g.depthBound ≤ fuel) :
    ∃ result, analyze g fuel ⟨sources, sinks, []⟩ = some ⟨sources, sinks, result⟩ ∧
      result.Nodup := by
  refine ⟨sources.flatMap fun s => sinks.flatMap fun t => suffixes g fuel s t ∅, ?_, ?_⟩
  · rw [analyze_run g fuel _ hf]
    simp
  · rw [List.nodup_flatMap]
    constructor
    · intro s _
      rw [List.nodup_flatMap]
      refine ⟨fun t _ => suffixes_nodup g t hg fuel s ∅, hk.imp ?_⟩
      intro t1 t2 ht q hq1 hq2
      obtain ⟨r1, rfl, hlast1, _⟩ := suffixes_sound g t1 fuel s ∅ q hq1
      obtain ⟨r2, hr2, hlast2, _⟩ := suffixes_sound g t2 fuel s ∅ _ hq2
      rw [← hr2, hlast1] at hlast2
      exact ht (Option.some.inj hlast2)
    · refine hs.imp ?_
      intro s1 s2 hs12 q hq1 hq2
      simp only [List.mem_flatMap] at hq1 hq2
      obtain ⟨t1, _, hq1⟩ := hq1
      obtain ⟨t2, _, hq2⟩ := hq2
      obtain ⟨r1, rfl, _⟩ := suffixes_sound g t1 fuel s1 ∅ q hq1
      obtain ⟨r2, hr2, _⟩ := suffixes_sound g t2 fuel s2 ∅ _ hq2
      exact hs12 (List.cons.inj hr2).1

/-- The diamond A->B, A->C, B->D, C->D with sources [A, B] and sinks [D, A]:
the result set holds four pairwise different paths. -/
theorem analyze_nodup_witness :
    (∀ n, (ICFG.getOutEdges ⟨[[1, 2], [3], [3], []]⟩ n).Nodup) ∧
    [0, 1].Nodup ∧ [3, 0].Nodup ∧ ICFG.depthBound ⟨[[1, 2], [3], [3], []]⟩ ≤ 4 ∧
    (∃ result, analyze ⟨[[1, 2], [3], [3], []]⟩ 4 ⟨[0, 1], [3, 0], []⟩ =
        some ⟨[0, 1], [3, 0], result⟩ ∧ result.Nodup) ∧
    analyze ⟨[[1, 2], [3], [3], []]⟩ 4 ⟨[0, 1], [3, 0], []⟩ =
      some ⟨[0, 1], [3, 0], [[0, 1, 3], [0, 2, 3], [0], [1, 3]]⟩ := by
  have hg : ∀ n, (ICFG.getOutEdges ⟨[[1, 2], [3], [3], []]⟩ n).Nodup := by
    intro n
    rcases n with _ | _ | _ | _ | n <;> simp [ICFG.getOutEdges]
  exact ⟨hg, by decide, by decide, by decide,
    analyze_nodup ⟨[[1, 2], [3], [3], []]⟩ 4 [0, 1] [3, 0] hg (by decide) (by decide)
      (by decide),
    by decide⟩

/-! ## Order of the recorded paths -/

/-- Once the fuel exceeds the number of unvisited edge destinations, one more
level of recursion records the same suffixes. -/
theorem suffixes_succ_eq (g : ICFG) (fuel : Nat) (c t : NodeID) (V : Finset NodeID)
    (h : (g.dests \ insert c V).card < fuel) :
    suffixes g (fuel + 1) c t V = suffixes g fuel c t V := by
  have hsome := dfs_isSome g t fuel c ⟨⟨[], [], []⟩, [], V⟩ h
  cases hd : dfs g fuel c t ⟨⟨[], [], []⟩, [], V⟩ with
  | none => rw [hd] at hsome; simp at hsome
  | some r =>
    have h1 := dfs_eq g t fuel c _ r hd
    have h2 := dfs_eq g t (fuel + 1) c _ r (dfs_mono g t fuel c _ r hd)
    have h3 := congrArg (fun x : DfsState => x.self.paths) (h1.symm.trans h2)
    simpa [DfsState.after] using h3.symm

theorem routes_map_snd (g : ICFG) (t : NodeID) :
    ∀ (fuel : Nat) (c : NodeID) (V : Finset NodeID),
      (routes g fuel c t V).map Prod.snd = suffixes g fuel c t V := by
  intro fuel
  induction fuel with
  | zero => intro c V; rfl
  | succ fuel ih =>
    intro c V
    by_cases hct : c = t
    · simp [routes, suffixes, hct]
    · simp only [routes, suffixes, hct, if_false, List.map_flatMap]
      have hl : (g.getOutEdges c).flatMap (fun succ =>
            if succ ∈ insert c V then []
            else (suffixes g fuel succ t (insert c V)).map (c :: ·)) =
          ((g.getOutEdges c).enum.map Prod.snd).flatMap (fun succ =>
            if succ ∈ insert c V then []
            else (suffixes g fuel succ t (insert c V)).map (c :: ·)) := by
        rw [List.enum_map_snd]
      rw [hl, List.flatMap_map]
      apply List.flatMap_congr
      intro ie _
      by_cases hv : ie.2 ∈ insert c V
      · simp [hv]
      · simp only [hv, if_false, List.map_map, ← ih ie.2 (insert c V)]
        rfl

theorem routes_follow (g : ICFG) (t : NodeID) :
    ∀ (fuel : Nat) (c : NodeID) (V : Finset NodeID) (r : List Nat × List NodeID),
      r ∈ routes g fuel c t V → follow g c r.1 = some r.2 := by
  intro fuel
  induction fuel with
  | zero => intro c V r h; simp [routes] at h
  | succ fuel ih =>
    intro c V r h
    by_cases hct : c = t
    · simp only [routes, hct, if_true, List.mem_singleton] at h
      rw [h, hct]
      rfl
    · simp only [routes, hct, if_false, List.mem_flatMap] at h
      obtain ⟨ie, hie, hr⟩ := h
      by_cases hv : ie.2 ∈ insert c V
      · simp [hv] at hr
      · simp only [hv, if_false, List.mem_map] at hr
        obtain ⟨r2, hr2, rfl⟩ := hr
        have hget := List.mem_enum_iff_getElem?.mp hie
        simp only [follow, hget, ih ie.2 (insert c V) r2 hr2, Option.map_some']

theorem enumFrom_pairwise_lt {α : Type} :
    ∀ (l : List α) (n : Nat), (List.enumFrom n l).Pairwise fun a b => a.1 < b.1 := by
  intro l
  induction l with
  | nil => intro n; simp
  | cons x l ih =>
    intro n
    rw [List.enumFrom_cons, List.pairwise_cons]
    exact ⟨fun b hb => List.le_fst_of_mem_enumFrom hb, ih (n + 1)⟩

/-- The suffixes are recorded in increasing lexicographic order of the edge
positions they were found through. -/
theorem routes_sorted (g : ICFG) (t : NodeID) :
    ∀ (fuel : Nat) (c : NodeID) (V : Finset NodeID),
      (routes g fuel c t V).Pairwise fun a b => List.Lex (· < ·) a.1 b.1 := by
  intro fuel
  induction fuel with
  | zero => intro c V; simp [routes]
  | succ fuel ih =>
    intro c V
    by_cases hct : c = t
    · simp [routes, hct]
    · simp only [routes, hct, if_false]
      rw [List.pairwise_flatMap]
      constructor
      · intro ie _
        by_cases hv : ie.2 ∈ insert c V
        · simp [hv]
        · simp only [hv, if_false, List.pairwise_map]
          exact (ih ie.2 (insert c V)).imp List.Lex.cons
      · refine (enumFrom_pairwise_lt (g.getOutEdges c) 0).imp ?_
        intro a b hab x hx y hy
        by_cases hva : a.2 ∈ insert c V
        · simp [hva] at hx
        by_cases hvb : b.2 ∈ insert c V
        · simp [hvb] at hy
        simp only [hva, hvb, if_false, List.mem_map] at hx hy
        obtain ⟨x2, _, rfl⟩ := hx
        obtain ⟨y2, _, rfl⟩ := hy
        exact List.Lex.rel hab

/-- Below a node other than the target, the recorded suffixes are, edge by
edge in iteration order, the current node followed by the suffixes that an
independent search from the edge's destination records with the current node
visited. -/
theorem suffixes_unfold (g : ICFG) (fuel : Nat) (c t : NodeID) (V : Finset NodeID)
    (hct : c ≠ t) (hf : g.depthBound ≤ fuel) :
    suffixes g fuel c t V =
      (g.getOutEdges c).flatMap fun e =>
        if e ∈ insert c V then [] else (suffixes g fuel e t (insert c V)).map (c :: ·) := by
  cases fuel with
  | zero => simp [ICFG.depthBound] at hf
  | succ k =>
    conv_lhs => simp only [suffixes, hct, if_false]
    apply List.flatMap_congr
    intro e he
    by_cases hv : e ∈ insert c V
    · simp [hv]
    · simp only [hv, if_false]
      have h1 := card_unvisited_lt (mem_dests he) hv
      have h2 : (g.dests \ insert c V).card ≤ g.dests.card :=
        Finset.card_le_card Finset.sdiff_subset
      have h3 : g.dests.card ≤ k := by
        simp only [ICFG.depthBound] at hf
        omega
      rw [suffixes_succ_eq g k e t (insert c V) (by omega)]

/-- C13 (sibling order): for `s` different from `t`, the list recorded by the
top-level search from `s` to `t` is the concatenation, over the outgoing edges
of `s` in edge-iteration order, of the list `through e` that the nested search
from the edge's destination `e` records with path [s] and visited set {s} (a
self-loop contributes nothing); each entry of `through e` is `s` followed by a
path from `e`.  Hence the recorded paths are listed in increasing lexicographic
order of the edge-iteration positions they are reached by from `s`. -/
theorem dfs_sibling_order (g : ICFG) (fuel : Nat) (s t : NodeID) (self : CFGAnalysis)
    (hst : s ≠ t) (hf : g.depthBound ≤ fuel) :
    ∃ through : NodeID → List (List NodeID),
      (∀ e, e ≠ s → ∀ a : CFGAnalysis,
        dfs g fuel e t ⟨a, [s], {s}⟩ =
          some ⟨{ a with paths := a.paths ++ through e }, [s], {s}⟩) ∧
      (∀ e p, p ∈ through e → ∃ q, p = s :: e :: q) ∧
      dfs g fuel s t (topLevel self) =
        some (topLevel { self with
          paths := self.paths ++
            (g.getOutEdges s).flatMap fun e => if e = s then [] else through e }) ∧
      ∃ rs : List (List Nat × List NodeID),
        ((g.getOutEdges s).flatMap fun e => if e = s then [] else through e) =
          rs.map Prod.snd ∧
        (rs.Pairwise fun a b => List.Lex (· < ·) a.1 b.1) ∧
        ∀ r ∈ rs, follow g s r.1 = some r.2 := by
  have hunf : suffixes g fuel s t ∅ =
      (g.getOutEdges s).flatMap fun e =>
        if e = s then [] else (suffixes g fuel e t {s}).map (s :: ·) := by
    rw [suffixes_unfold g fuel s t ∅ hst hf]
    apply List.flatMap_congr
    intro e _
    by_cases hes : e = s <;> simp [hes]
  refine ⟨fun e => (suffixes g fuel e t {s}).map (s :: ·), ?_, ?_, ?_, ?_⟩
  · intro e hes a
    rw [dfs_unvisited g fuel e t ⟨a, [s], {s}⟩ (by simpa using hes) hf]
    simp
  · intro e p hp
    simp only [List.mem_map] at hp
    obtain ⟨q, hq, rfl⟩ := hp
    obtain ⟨r, rfl, _⟩ := suffixes_sound g t fuel e {s} q hq
    exact ⟨r, rfl⟩
  · rw [dfs_topLevel g fuel s t self hf, hunf]
  · exact ⟨routes g fuel s t ∅, by rw [routes_map_snd, hunf], routes_sorted g t fuel s ∅,
      routes_follow g t fuel s ∅⟩

/-- Scenario 3, the diamond A->B, A->C, B->D, C->D with s = A and t = D: the
result is [[A,B,D],[A,C,D]] in that order, the first found through edge 0 of A,
the second through edge 1 of A. -/
theorem dfs_sibling_order_witness :
    (0 : NodeID) ≠ 3 ∧ ICFG.depthBound ⟨[[1, 2], [3], [3], []]⟩ ≤ 4 ∧
    (∃ through : NodeID → List (List NodeID),
      (∀ e, e ≠ 0 → ∀ a : CFGAnalysis,
        dfs ⟨[[1, 2], [3], [3], []]⟩ 4 e 3 ⟨a, [0], {0}⟩ =
          some ⟨{ a with paths := a.paths ++ through e }, [0], {0}⟩) ∧
      (∀ e p, p ∈ through e → ∃ q, p = 0 :: e :: q) ∧
      dfs ⟨[[1, 2], [3], [3], []]⟩ 4 0 3 (topLevel ⟨[0], [3], []⟩) =
        some (topLevel { (⟨[0], [3], []⟩ : CFGAnalysis) with
          paths := [] ++
            (ICFG.getOutEdges ⟨[[1, 2], [3], [3], []]⟩ 0).flatMap fun e =>
              if e = 0 then [] else through e }) ∧
      ∃ rs : List (List Nat × List NodeID),
        ((ICFG.getOutEdges ⟨[[1, 2], [3], [3], []]⟩ 0).flatMap fun e =>
            if e = 0 then [] else through e) = rs.map Prod.snd ∧
        (rs.Pairwise fun a b => List.Lex (· < ·) a.1 b.1) ∧
        ∀ r ∈ rs, follow ⟨[[1, 2], [3], [3], []]⟩ 0 r.1 = some r.2) ∧
    dfs ⟨[[1, 2], [3], [3], []]⟩ 4 0 3 (topLevel ⟨[0], [3], []⟩) =
      some (topLevel ⟨[0], [3], [[0, 1, 3], [0, 2, 3]]⟩) ∧
    dfs ⟨[[1, 2], [3], [3], []]⟩ 4 1 3 ⟨⟨[0], [3], []⟩, [0], {0}⟩ =
      some ⟨⟨[0], [3], [[0, 1, 3]]⟩, [0], {0}⟩ ∧
    dfs ⟨[[1, 2], [3], [3], []]⟩ 4 2 3 ⟨⟨[0], [3], []⟩, [0], {0}⟩ =
      some ⟨⟨[0], [3], [[0, 2, 3]]⟩, [0], {0}⟩ ∧
    follow ⟨[[1, 2], [3], [3], []]⟩ 0 [0, 0] = some [0, 1, 3] ∧
    follow ⟨[[1, 2], [3], [3], []]⟩ 0 [1, 0] = some [0, 2, 3] :=
  ⟨by decide, by decide,
    dfs_sibling_order ⟨[[1, 2], [3], [3], []]⟩ 4 0 3 ⟨[0], [3], []⟩ (by decide) (by decide),
    by decide, by decide, by decide, by decide, by decide⟩

/-! ## The path/visited invariant -/

theorem dfsTraced_succ (g : ICFG) (fuel : Nat) (c t : NodeID) (x : Traced) :
    dfsTraced g (fuel + 1) c t x =
      (if c = t then
          some { st := { self := x.st.self.recordPath (x.st.currentPath ++ [c]),
                         currentPath := x.st.currentPath ++ [c],
                         visited := insert c x.st.visited },
                 log := x.log ++ [(x.st.currentPath, x.st.visited)] ++
                   [(x.st.currentPath ++ [c], insert c x.st.visited)] }
        else
          forEach (tracedBody g fuel t) (g.getOutEdges c)
            { st := { self := x.st.self, currentPath := x.st.currentPath ++ [c],
                      visited := insert c x.st.visited },
              log := x.log ++ [(x.st.currentPath, x.st.visited)] ++
                [(x.st.currentPath ++ [c], insert c x.st.visited)] }).map
        fun x2 =>
          { st := { x2.st with currentPath := x2.st.currentPath.dropLast,
                               visited := x2.st.visited.erase c },
            log := x2.log ++ [(x2.st.currentPath.dropLast, x2.st.visited.erase c)] } := rfl

/-- Forgetting the ghost log in the edge loop gives the edge loop of `dfs`. -/
theorem tracedLoop_erase (g : ICFG) (fuel : Nat) (t : NodeID)
    (ih : ∀ c x, (dfsTraced g fuel c t x).map (fun y => y.st) = dfs g fuel c t x.st) :
    ∀ (es : List NodeID) (y : Traced),
      (forEach (tracedBody g fuel t) es y).map (fun z => z.st) =
        forEach (edgeBody g fuel t) es y.st := by
  intro es
  induction es with
  | nil => intro y; rfl
  | cons e es ihes =>
    intro y
    simp only [forEach]
    by_cases hv : e ∈ y.st.visited
    · have h1 : tracedBody g fuel t e y = some y := by simp [tracedBody, hv]
      have h2 : edgeBody g fuel t e y.st = some y.st := by simp [edgeBody, hv]
      rw [h1, h2]
      exact ihes y
    · have h1 : tracedBody g fuel t e y = dfsTraced g fuel e t y := by simp [tracedBody, hv]
      have h2 : edgeBody g fuel t e y.st = dfs g fuel e t y.st := by simp [edgeBody, hv]
      rw [h1, h2, ← ih e y]
      cases dfsTraced g fuel e t y with
      | none => rfl
      | some y1 => exact ihes y1

/-- Forgetting the ghost log gives `dfs`: the traced search makes the same
calls and computes the same states. -/
theorem dfsTraced_erase (g : ICFG) (t : NodeID) :
    ∀ (fuel : Nat) (c : NodeID) (x : Traced),
      (dfsTraced g fuel c t x).map (fun y => y.st) = dfs g fuel c t x.st := by
  intro fuel
  induction fuel with
  | zero => intro c x; rfl
  | succ fuel ih =>
    intro c x
    rw [dfsTraced_succ, dfs_succ]
    by_cases hct : c = t
    · simp [hct]
    · simp only [hct, if_false]
      have h := tracedLoop_erase g fuel t ih (g.getOutEdges c)
        { st := { self := x.st.self, currentPath := x.st.currentPath ++ [c],
                  visited := insert c x.st.visited },
          log := x.log ++ [(x.st.currentPath, x.st.visited)] ++
            [(x.st.currentPath ++ [c], insert c x.st.visited)] }
      dsimp only at h
      rw [← h, Option.map_map, Option.map_map]
      rfl

theorem dfsTraced_st {g : ICFG} {t : NodeID} {fuel : Nat} {c : NodeID} {x x2 : Traced}
    (h : dfsTraced g fuel c t x = some x2) : dfs g fuel c t x.st = some x2.st := by
  rw [← dfsTraced_erase g t fuel c x, h]
  rfl

/-- Marking and pushing an unvisited node keeps the invariant. -/
theorem pathInv_push {P : List NodeID} {V : Finset NodeID} {c : NodeID}
    (hinv : PathInv (P, V)) (hc : c ∉ V) : PathInv (P ++ [c], insert c V) := by
  obtain ⟨hiff, hnd⟩ := hinv
  constructor
  · intro n
    simp only [List.mem_append, List.mem_singleton, Finset.mem_insert]
    rw [hiff n]
    exact or_comm
  · rw [List.nodup_append]
    refine ⟨hnd, by simp, ?_⟩
    intro a ha hb
    simp only [List.mem_singleton] at hb
    subst hb
    exact hc ((hiff a).mp ha)

/-- The edge loop of the traced search keeps the working path and the visited
set and logs only observations that satisfy the invariant. -/
theorem tracedLoop_inv (g : ICFG) (fuel : Nat) (t : NodeID)
    (ih : ∀ c x x2, PathInv (x.st.currentPath, x.st.visited) → c ∉ x.st.visited →
      dfsTraced g fuel c t x = some x2 →
      ∃ obs, x2.log = x.log ++ obs ∧ ∀ o ∈ obs, PathInv o) :
    ∀ (es : List NodeID) (y y2 : Traced), PathInv (y.st.currentPath, y.st.visited) →
      forEach (tracedBody g fuel t) es y = some y2 →
      y2.st.currentPath = y.st.currentPath ∧ y2.st.visited = y.st.visited ∧
        ∃ obs, y2.log = y.log ++ obs ∧ ∀ o ∈ obs, PathInv o := by
  intro es
  induction es with
  | nil =>
    intro y y2 _ h
    simp only [forEach, Option.some.injEq] at h
    subst h
    exact ⟨rfl, rfl, [], by simp, by simp⟩
  | cons e es ihes =>
    intro y y2 hinv h
    simp only [forEach] at h
    by_cases hv : e ∈ y.st.visited
    · have h1 : tracedBody g fuel t e y = some y := by simp [tracedBody, hv]
      rw [h1] at h
      exact ihes y y2 hinv h
    · have h1 : tracedBody g fuel t e y = dfsTraced g fuel e t y := by simp [tracedBody, hv]
      rw [h1] at h
      cases hd : dfsTraced g fuel e t y with
      | none => rw [hd] at h; simp at h
      | some y1 =>
        rw [hd] at h
        simp only [Option.some_bind] at h
        have hst := dfs_eq g t fuel e y.st y1.st (dfsTraced_st hd)
        have hp : y1.st.currentPath = y.st.currentPath := by rw [hst]; rfl
        have hvis : y1.st.visited = y.st.visited := by
          rw [hst]; exact Finset.erase_eq_of_not_mem hv
        obtain ⟨obs1, hlog1, hobs1⟩ := ih e y y1 hinv hv hd
        obtain ⟨hp2, hv2, obs2, hlog2, hobs2⟩ := ihes y1 y2 (by rw [hp, hvis]; exact hinv) h
        refine ⟨hp2.trans hp, hv2.trans hvis, obs1 ++ obs2, ?_, ?_⟩
        · rw [hlog2, hlog1, List.append_assoc]
        · intro o ho
          rcases List.mem_append.mp ho with h3 | h3
          · exact hobs1 o h3
          · exact hobs2 o h3

/-- A traced call entered on an unvisited node in a state satisfying the
invariant logs only observations that satisfy it. -/
theorem dfsTraced_inv (g : ICFG) (t : NodeID) :
    ∀ (fuel : Nat) (c : NodeID) (x x2 : Traced),
      PathInv (x.st.currentPath, x.st.visited) → c ∉ x.st.visited →
      dfsTraced g fuel c t x = some x2 →
      ∃ obs, x2.log = x.log ++ obs ∧ ∀ o ∈ obs, PathInv o := by
  intro fuel
  induction fuel with
  | zero => intro c x x2 _ _ h; simp [dfsTraced] at h
  | succ fuel ih =>
    intro c x x2 hinv hc h
    have hpush := pathInv_push hinv hc
    have hback : PathInv ((x.st.currentPath ++ [c]).dropLast,
        (insert c x.st.visited).erase c) := by
      rw [List.dropLast_concat, Finset.erase_insert hc]
      exact hinv
    rw [dfsTraced_succ] at h
    by_cases hct : c = t
    · simp only [hct, if_true, Option.map_some', Option.some.injEq] at h
      subst h
      refine ⟨[(x.st.currentPath, x.st.visited),
        (x.st.currentPath ++ [t], insert t x.st.visited),
        ((x.st.currentPath ++ [t]).dropLast, (insert t x.st.visited).erase t)], by simp, ?_⟩
      intro o ho
      simp only [List.mem_cons, List.mem_singleton, List.not_mem_nil, or_false] at ho
      rcases ho with rfl | rfl | rfl
      · exact hinv
      · exact hct ▸ hpush
      · exact hct ▸ hback
    · simp only [hct, if_false] at h
      cases hl : forEach (tracedBody g fuel t) (g.getOutEdges c)
          { st := { self := x.st.self, currentPath := x.st.currentPath ++ [c],
                    visited := insert c x.st.visited },
            log := x.log ++ [(x.st.currentPath, x.st.visited)] ++
              [(x.st.currentPath ++ [c], insert c x.st.visited)] } with
      | none => rw [hl] at h; simp at h
      | some y2 =>
        rw [hl] at h
        simp only [Option.map_some', Option.some.injEq] at h
        subst h
        obtain ⟨hp, hv, obs, hlog, hobs⟩ := tracedLoop_inv g fuel t ih _ _ y2 hpush hl
        simp only at hp hv hlog
        refine ⟨[(x.st.currentPath, x.st.visited),
          (x.st.currentPath ++ [c], insert c x.st.visited)] ++ obs ++
          [((x.st.currentPath ++ [c]).dropLast, (insert c x.st.visited).erase c)], ?_, ?_⟩
        · simp [hlog, hp, hv]
        · intro o ho
          simp only [List.mem_append, List.mem_cons, List.mem_singleton, List.not_mem_nil,
            or_false] at ho
          rcases ho with (((rfl | rfl) | h3) | rfl)
          · exact hinv
          · exact hpush
          · exact hobs o h3
          · exact hback

/-- C12 (path/visited invariant): the top-level search started by `analyze`
(empty path, empty visited set), run with the ghost log, returns (fuel at least
the depth bound) in the state in which `dfs` returns, and every observation it
logged, at the entry of each call, after its step 1 and at its return,
satisfies: a node occurs in `currentPath` if and only if it is in `visited`,
and `currentPath` contains no node twice. -/
theorem dfs_invariant (g : ICFG) (fuel : Nat) (s t : NodeID) (self : CFGAnalysis)
    (hf : g.depthBound ≤ fuel) :
    ∃ x, dfsTraced g fuel s t ⟨topLevel self, []⟩ = some x ∧
      dfs g fuel s t (topLevel self) = some x.st ∧
      ∀ o ∈ x.log, (∀ n, n ∈ o.1 ↔ n ∈ o.2) ∧ o.1.Nodup := by
  have hrun := dfs_run g fuel s t (topLevel self) hf
  have her := dfsTraced_erase g t fuel s ⟨topLevel self, []⟩
  cases hd : dfsTraced g fuel s t ⟨topLevel self, []⟩ with
  | none => rw [hd, hrun] at her; simp at her
  | some x =>
    refine ⟨x, rfl, dfsTraced_st hd, ?_⟩
    have hinit : PathInv (([] : List NodeID), (∅ : Finset NodeID)) :=
      ⟨fun n => by simp, List.nodup_nil⟩
    obtain ⟨obs, hlog, hobs⟩ := dfsTraced_inv g t fuel s ⟨topLevel self, []⟩ x hinit
      (by simp [topLevel]) hd
    intro o ho
    rw [hlog] at ho
    exact hobs o (by simpa using ho)

/-- Scenario 2, the cycle A->B, B->A, B->C searched from A to C: three calls
are made, nine observations are logged, and each satisfies the invariant. -/
theorem dfs_invariant_witness :
    ICFG.depthBound ⟨[[1], [0, 2], []]⟩ ≤ 4 ∧
    (∃ x, dfsTraced ⟨[[1], [0, 2], []]⟩ 4 0 2 ⟨topLevel ⟨[0], [2], []⟩, []⟩ = some x ∧
      dfs ⟨[[1], [0, 2], []]⟩ 4 0 2 (topLevel ⟨[0], [2], []⟩) = some x.st ∧
      ∀ o ∈ x.log, (∀ n, n ∈ o.1 ↔ n ∈ o.2) ∧ o.1.Nodup) ∧
    dfsTraced ⟨[[1], [0, 2], []]⟩ 4 0 2 ⟨topLevel ⟨[0], [2], []⟩, []⟩ =
      some ⟨topLevel ⟨[0], [2], [[0, 1, 2]]⟩,
        [([], ∅), ([0], {0}), ([0], {0}), ([0, 1], {1, 0}), ([0, 1], {1, 0}),
          ([0, 1, 2], {2, 1, 0}), ([0, 1], {1, 0}), ([0], {0}), ([], ∅)]⟩ :=
  ⟨by decide, dfs_invariant ⟨[[1], [0, 2], []]⟩ 4 0 2 ⟨[0], [2], []⟩ (by decide), rfl⟩

end CFGA
